import Mathlib

/-!
Verification of the KEGG flat-file parser of `src/kegger/kegg_tools.py`
(the functions `kegg_parser` and `clean_entry`).

Strings are modelled as `List Char`; text is split into lines the way
Python file iteration does (on the newline character, which is itself
whitespace and hence invisible to the `strip` calls of the source).
Python exceptions are modelled by `Except KErr`:
`KErr.malformedRecord` stands for the `KeyError` raised when a
continuation line arrives before any tag (the spec's
`MalformedRecordError`), `KErr.malformedGeneLine` for the `ValueError`
raised by the two-element unpacking in the `GENE` branch (the spec's
`MalformedGeneLineError`), and `KErr.indexError` for the `IndexError`
of a `value[0]` access on an empty line list.
-/

namespace Kegger

/-- A string of the source program, modelled as a list of characters. -/
abbrev Line := List Char

/-- Abbreviation turning a Lean string literal into a `Line`. -/
def ltag (s : String) : Line := s.toList

/-- Characters stripped by Python `str.strip()` and split on by
`str.split()` with default separator (the ASCII whitespace set). -/
def isSpace (c : Char) : Bool :=
  c = ' ' || c = '\t' || c = '\n' || c = '\r' || c = '\x0b' || c = '\x0c'

/-- Python `s.strip()`: remove leading and trailing whitespace. -/
def stripChars (l : Line) : Line :=
  ((l.dropWhile isSpace).reverse.dropWhile isSpace).reverse

/-- Python `s.split()` helper: `acc` collects the current token reversed. -/
def splitWsAux : Line → Line → List Line
  | [], acc => if acc = [] then [] else [acc.reverse]
  | c :: rest, acc =>
    if isSpace c then
      if acc = [] then splitWsAux rest [] else acc.reverse :: splitWsAux rest []
    else
      splitWsAux rest (c :: acc)

/-- Python `s.split()` with no arguments: split on whitespace runs,
producing no empty tokens. Used by the `ENTRY` branch of `clean_entry`. -/
def pySplitWs (l : Line) : List Line := splitWsAux l []

/-- Python `s.split(None, 1)`: skip leading whitespace; if nothing is
left return `[]`; otherwise take the maximal non-whitespace token, skip
the following whitespace run, and return the token alone when nothing
follows, else the token and the verbatim remainder. Used by the `GENE`
branch of `clean_entry`. -/
def splitNone1 (l : Line) : List Line :=
  if l.dropWhile isSpace = [] then []
  else if ((l.dropWhile isSpace).dropWhile (fun c => !(isSpace c))).dropWhile isSpace
      = [] then
    [(l.dropWhile isSpace).takeWhile (fun c => !(isSpace c))]
  else
    [(l.dropWhile isSpace).takeWhile (fun c => !(isSpace c)),
      ((l.dropWhile isSpace).dropWhile (fun c => !(isSpace c))).dropWhile isSpace]

/-- Python `s.split("  ")`: split on each non-overlapping, leftmost-first
occurrence of two consecutive spaces. Used by the `PATHWAY_MAP` branch
of `clean_entry`. -/
def splitTwoSpace : Line → List Line
  | [] => [[]]
  | ' ' :: ' ' :: rest => [] :: splitTwoSpace rest
  | c :: rest =>
    match splitTwoSpace rest with
    | [] => [[c]]
    | h :: t => (c :: h) :: t

/-- Length of Python `zip(*parts)`: zero for no iterables, otherwise the
minimum of the lengths. -/
def zipLen : List (List α) → Nat
  | [] => 0
  | [p] => p.length
  | p :: q :: ps => min p.length (zipLen (q :: ps))

/-- Python `zip(*parts)` on a list of lists: the truncated transpose.
Row `i` collects the `i`-th element of every part. -/
def pyZipStar (parts : List (List Line)) : List (List Line) :=
  (List.range (zipLen parts)).map (fun i => parts.map (fun p => p.getD i []))

/-- The error kinds of the parser, modelling the Python exceptions (see
the module docstring). -/
inductive KErr where
  | malformedRecord
  | malformedGeneLine
  | indexError
deriving DecidableEq

instance {ε α : Type} [DecidableEq ε] [DecidableEq α] : DecidableEq (Except ε α) :=
  fun x y =>
    match x, y with
    | .ok a, .ok b =>
      if h : a = b then .isTrue (by rw [h]) else .isFalse (fun hh => h (Except.ok.inj hh))
    | .error a, .error b =>
      if h : a = b then .isTrue (by rw [h]) else .isFalse (fun hh => h (Except.error.inj hh))
    | .ok _, .error _ => .isFalse (fun hh => Except.noConfusion hh)
    | .error _, .ok _ => .isFalse (fun hh => Except.noConfusion hh)

/-- The tokenizer's intermediate result: an ordered mapping from tag to
the raw value lines collected under it, modelling the insertion-ordered
Python `dict` `saved_rec`. -/
abbrev RawRecord := List (Line × List Line)

/-- A normalized field value: `clean_entry` stores either a stripped
string or a list of strings under each tag. -/
inductive NormValue where
  | str : Line → NormValue
  | list : List Line → NormValue
deriving DecidableEq

/-- The normalizer's result, modelling the insertion-ordered Python
`defaultdict` `cleaned_entry`. -/
abbrev NormRecord := List (Line × NormValue)

/-- Python `d[k] = v` on an insertion-ordered dict: overwrite in place
when the key exists, append a fresh binding otherwise. -/
def updAssoc : List (Line × α) → Line → α → List (Line × α)
  | [], k, v => [(k, v)]
  | (k', v') :: rest, k, v =>
    if k' = k then (k, v) :: rest else (k', v') :: updAssoc rest k v

/-- Python `d[k]` as a lookup: `none` models a `KeyError`. -/
def lookupAssoc : List (Line × α) → Line → Option α
  | [], _ => none
  | (k', v') :: rest, k => if k' = k then some v' else lookupAssoc rest k

/-- The key sequence of an ordered mapping, in insertion order. -/
def keys (r : List (Line × α)) : List Line := r.map (·.1)

/-- One pass of the line loop of `kegg_parser`: stop at a `///` line,
otherwise split the line at character index 12, strip both zones, open a
new entry when the tag zone is non-blank, and append to the current
tag's entry when it is blank. A blank tag zone before any tag is
established hits `saved_rec[None]`, a `KeyError`, modelled as
`KErr.malformedRecord`. -/
def tokenizeAux : List Line → Option Line → RawRecord → Except KErr RawRecord
  | [], _, r => .ok r
  | line :: rest, cur, r =>
    if line.take 3 = ltag "///" then .ok r
    else if stripChars (line.take 12) ≠ [] then
      tokenizeAux rest (some (stripChars (line.take 12)))
        (updAssoc r (stripChars (line.take 12)) [stripChars (line.drop 12)])
    else
      match cur with
      | none => .error .malformedRecord
      | some k =>
        match lookupAssoc r k with
        | none => .error .malformedRecord
        | some vs =>
          tokenizeAux rest cur (updAssoc r k (vs ++ [stripChars (line.drop 12)]))

/-- The tokenizer of `kegg_parser`: scan the lines starting with no
current tag and an empty record. -/
def tokenize (lines : List Line) : Except KErr RawRecord :=
  tokenizeAux lines none []

/-- Python line iteration helper: split a character list on newline
characters, keeping empty pieces. -/
def splitNl : List Char → List (List Char)
  | [] => [[]]
  | c :: rest =>
    if c = '\n' then [] :: splitNl rest
    else
      match splitNl rest with
      | [] => [[c]]
      | h :: t => (c :: h) :: t

/-- Python `for line in file`: the lines of a text, without their
trailing newline characters (a trailing newline is whitespace at a
position where every use in the source strips it, so dropping it here
is behaviour-preserving). Empty text yields no lines. -/
def pyLines (text : List Char) : List Line :=
  let ps := splitNl text
  if ps.getLast? = some [] then ps.dropLast else ps

/-- One branch of `clean_entry`'s dispatch chain, processing the entry
of one `tag` with raw lines `value` against the accumulating output
record. Mirrors the `if/elif` chain of the source, in order. In the
`PATHWAY`/`GENES`/`REACTION`/`MODULE` branch the source appends each
stripped line to `cleaned_entry[tag]`, which the `defaultdict` starts at
`[]` since input tags are unique within a pass, so the loop amounts to
assigning the list of stripped lines. -/
def cleanStep (out : NormRecord) (tag : Line) (value : List Line) :
    Except KErr NormRecord :=
  if tag = ltag "ENTRY" then
    match value with
    | [] => .error .indexError
    | v :: _ => .ok (updAssoc out tag (.list (pySplitWs v)))
  else if tag = ltag "NAME" ∨ tag = ltag "ORGANISM" then
    match value with
    | [] => .error .indexError
    | v :: _ => .ok (updAssoc out tag (.str (stripChars v)))
  else if tag = ltag "GENE" then
    match pyZipStar (value.map splitNone1) with
    | [g, o] => .ok (updAssoc (updAssoc out tag (.list g)) (ltag "ORTHOLOG") (.list o))
    | _ => .error .malformedGeneLine
  else if tag = ltag "REL_PATHWAY" then
    .ok (updAssoc out tag (.list ((value.map stripChars).filter (· ≠ []))))
  else if tag = ltag "PATHWAY_MAP" then
    match value with
    | [] => .error .indexError
    | v :: _ => .ok (updAssoc out tag (.list (splitTwoSpace v)))
  else if tag = ltag "PATHWAY" ∨ tag = ltag "GENES" ∨ tag = ltag "REACTION" ∨
      tag = ltag "MODULE" then
    .ok (updAssoc out tag (.list (value.map stripChars)))
  else
    match value with
    | [] => .error .indexError
    | v :: _ => .ok (updAssoc out tag (.str (stripChars v)))

/-- The iteration of `clean_entry` over the entries of the raw record,
in insertion order, aborting at the first raised error. -/
def cleanAux : NormRecord → RawRecord → Except KErr NormRecord
  | out, [] => .ok out
  | out, (t, vs) :: rest =>
    match cleanStep out t vs with
    | .error e => .error e
    | .ok out' => cleanAux out' rest

/-- The normalizer `clean_entry` of the source: fold the dispatch chain
over the raw record starting from an empty output. -/
def clean_entry (r : RawRecord) : Except KErr NormRecord :=
  cleanAux [] r

/-- The full parser, the function named kegg_parser in the source
(that name is shortened here): split the text into
lines, tokenize, then normalize. (The source's temporary-file round
trip reproduces the text unchanged and is elided; the unused
`force_refresh` parameter is dropped.) -/
def kegg_parse (text : List Char) : Except KErr NormRecord :=
  match tokenize (pyLines text) with
  | .error e => .error e
  | .ok r => clean_entry r

/-- The tokenizer invariant of the raw record: every stored entry has at
least one line and every stored line is already stripped. -/
def GoodRec (r : RawRecord) : Prop :=
  ∀ p ∈ r, p.2 ≠ [] ∧ ∀ v ∈ p.2, stripChars v = v

/-- The gene-id component of a `GENE` line: what `split(None, 1)` returns
first on a stripped line, its maximal leading non-whitespace token. -/
def fstTok (v : Line) : Line := v.takeWhile (fun c => !(isSpace c))

/-- The orthology-description component of a `GENE` line: what
`split(None, 1)` returns second on a stripped line, everything after the
first whitespace run. -/
def sndTok (v : Line) : Line :=
  (v.dropWhile (fun c => !(isSpace c))).dropWhile isSpace

/-- Modelled from the claim: the key sequence the claim predicts for the
normalized record, namely the raw record's keys in first-seen order with
the synthesized `ORTHOLOG` key inserted immediately after `GENE`. -/
def expectedKeys : List Line → List Line
  | [] => []
  | k :: rest =>
    if k = ltag "GENE" then k :: ltag "ORTHOLOG" :: expectedKeys rest
    else k :: expectedKeys rest

theorem lookupAssoc_updAssoc_self {α : Type} (r : List (Line × α)) (k : Line) (v : α) :
    lookupAssoc (updAssoc r k v) k = some v := by
  induction r with
  | nil => simp [updAssoc, lookupAssoc]
  | cons p rest ih =>
    obtain ⟨k', v'⟩ := p
    by_cases h : k' = k <;> simp [updAssoc, lookupAssoc, h, ih]

theorem lookupAssoc_updAssoc_ne {α : Type} (r : List (Line × α)) (k k' : Line) (v : α)
    (h : k' ≠ k) : lookupAssoc (updAssoc r k v) k' = lookupAssoc r k' := by
  induction r with
  | nil => simp [updAssoc, lookupAssoc, Ne.symm h]
  | cons p rest ih =>
    obtain ⟨k₀, v₀⟩ := p
    by_cases h₀ : k₀ = k
    · subst h₀
      simp [updAssoc, lookupAssoc, Ne.symm h]
    · simp [updAssoc, lookupAssoc, h₀, ih]

theorem updAssoc_updAssoc {α : Type} (r : List (Line × α)) (k : Line) (w v : α) :
    updAssoc (updAssoc r k w) k v = updAssoc r k v := by
  induction r with
  | nil => simp [updAssoc]
  | cons p rest ih =>
    obtain ⟨k₀, v₀⟩ := p
    by_cases h₀ : k₀ = k
    · subst h₀
      simp [updAssoc]
    · simp [updAssoc, h₀, ih]

theorem keys_updAssoc_of_not_mem {α : Type} (r : List (Line × α)) (k : Line) (v : α)
    (h : k ∉ keys r) : keys (updAssoc r k v) = keys r ++ [k] := by
  induction r with
  | nil => simp [updAssoc, keys]
  | cons p rest ih =>
    obtain ⟨k₀, v₀⟩ := p
    simp only [keys, List.map_cons, List.mem_cons] at h
    push_neg at h
    have h1 : updAssoc ((k₀, v₀) :: rest) k v = (k₀, v₀) :: updAssoc rest k v := by
      simp [updAssoc, Ne.symm h.1]
    rw [h1]
    show k₀ :: keys (updAssoc rest k v) = (k₀ :: keys rest) ++ [k]
    rw [ih h.2, List.cons_append]

theorem stripChars_eq_rdrop (l : Line) :
    stripChars l = (l.dropWhile isSpace).rdropWhile isSpace := rfl

theorem stripChars_idem (l : Line) : stripChars (stripChars l) = stripChars l := by
  rw [stripChars_eq_rdrop, stripChars_eq_rdrop]
  have h1 : List.dropWhile isSpace ((l.dropWhile isSpace).rdropWhile isSpace) =
      (l.dropWhile isSpace).rdropWhile isSpace := by
    rcases hA : (l.dropWhile isSpace).rdropWhile isSpace with _ | ⟨hd, tl⟩
    · rfl
    · obtain ⟨t, ht⟩ := List.rdropWhile_prefix isSpace (l.dropWhile isSpace)
      rw [hA] at ht
      have hns : isSpace hd = false := by
        have h0 := List.head?_dropWhile_not isSpace l
        rw [← ht] at h0
        simpa using h0
      rw [List.dropWhile_cons, if_neg (by simp [hns])]
  rw [h1, List.rdropWhile_idempotent]

theorem goodRec_updAssoc (r : RawRecord) (k : Line) (v : List Line)
    (hr : GoodRec r) (hv : v ≠ [] ∧ ∀ x ∈ v, stripChars x = x) :
    GoodRec (updAssoc r k v) := by
  induction r with
  | nil =>
    intro p hp
    simp only [updAssoc, List.mem_singleton] at hp
    subst hp
    exact hv
  | cons q rest ih =>
    obtain ⟨k₀, v₀⟩ := q
    intro p hp
    by_cases h₀ : k₀ = k
    · subst h₀
      rw [show updAssoc ((k₀, v₀) :: rest) k₀ v = (k₀, v) :: rest from by
        simp [updAssoc]] at hp
      rcases List.mem_cons.mp hp with hp | hp
      · subst hp; exact hv
      · exact hr p (List.mem_cons_of_mem _ hp)
    · rw [show updAssoc ((k₀, v₀) :: rest) k v = (k₀, v₀) :: updAssoc rest k v from by
        simp [updAssoc, h₀]] at hp
      rcases List.mem_cons.mp hp with hp | hp
      · subst hp; exact hr (k₀, v₀) (List.mem_cons_self _ _)
      · exact ih (fun q hq => hr q (List.mem_cons_of_mem _ hq)) p hp

theorem goodRec_lookup (r : RawRecord) (k : Line) (vs : List Line)
    (hr : GoodRec r) (h : lookupAssoc r k = some vs) :
    vs ≠ [] ∧ ∀ x ∈ vs, stripChars x = x := by
  induction r with
  | nil => simp [lookupAssoc] at h
  | cons q rest ih =>
    obtain ⟨k₀, v₀⟩ := q
    by_cases h₀ : k₀ = k
    · rw [lookupAssoc, if_pos h₀] at h
      cases h
      exact hr (k₀, vs) (List.mem_cons_self _ _)
    · rw [lookupAssoc, if_neg h₀] at h
      exact ih (fun q hq => hr q (List.mem_cons_of_mem _ hq)) h

theorem tokenizeAux_good (lines : List Line) :
    ∀ (cur : Option Line) (r out : RawRecord), GoodRec r →
      tokenizeAux lines cur r = .ok out → GoodRec out := by
  induction lines with
  | nil =>
    intro cur r out hr h
    rw [tokenizeAux] at h
    cases h
    exact hr
  | cons line rest ih =>
    intro cur r out hr h
    simp only [tokenizeAux] at h
    by_cases h3 : line.take 3 = ltag "///"
    · rw [if_pos h3] at h; cases h; exact hr
    · rw [if_neg h3] at h
      by_cases htag : stripChars (line.take 12) = []
      · rw [if_neg (not_not_intro htag)] at h
        split at h
        · exact Except.noConfusion h
        · rename_i k
          split at h
          · exact Except.noConfusion h
          · rename_i vs hlk
            have hvsg := goodRec_lookup r k vs hr hlk
            refine ih _ _ _ (goodRec_updAssoc r _ _ hr ⟨by simp, ?_⟩) h
            intro x hx
            rcases List.mem_append.mp hx with hx | hx
            · exact hvsg.2 x hx
            · rw [List.mem_singleton] at hx
              subst hx
              exact stripChars_idem _
      · rw [if_pos htag] at h
        exact ih _ _ _
          (goodRec_updAssoc r _ _ hr ⟨by simp, by simp [stripChars_idem]⟩) h

theorem cleanStep_gene_error (out : NormRecord) (vs : List Line) (e : KErr)
    (h : cleanStep out (ltag "GENE") vs = .error e) : e = .malformedGeneLine := by
  unfold cleanStep at h
  rw [if_neg (by decide), if_neg (by decide), if_pos rfl] at h
  rcases hz : pyZipStar (vs.map splitNone1) with _ | ⟨a, _ | ⟨b, _ | ⟨c, rs⟩⟩⟩ <;>
    rw [hz] at h <;> simp_all

theorem cleanStep_error_eq (out : NormRecord) (t : Line) (vs : List Line) (e : KErr)
    (hne : vs ≠ []) (h : cleanStep out t vs = .error e) : e = .malformedGeneLine := by
  by_cases hg : t = ltag "GENE"
  · subst hg
    exact cleanStep_gene_error out vs e h
  · exfalso
    rcases vs with _ | ⟨v, vs'⟩
    · exact hne rfl
    · unfold cleanStep at h
      split_ifs at h

theorem cleanAux_error_eq (r : RawRecord) :
    ∀ (out : NormRecord) (e : KErr), (∀ p ∈ r, p.2 ≠ []) →
      cleanAux out r = .error e → e = .malformedGeneLine := by
  induction r with
  | nil => intro out e _ h; rw [cleanAux] at h; cases h
  | cons q rest ih =>
    obtain ⟨t, vs⟩ := q
    intro out e hne h
    rw [cleanAux] at h
    rcases hs : cleanStep out t vs with e' | out' <;> rw [hs] at h
    · cases h
      exact cleanStep_error_eq out t vs e (hne (t, vs) (List.mem_cons_self _ _)) hs
    · exact ih out' e (fun p hp => hne p (List.mem_cons_of_mem _ hp)) h

theorem dropWhile_eq_self_of_all (p : Char → Bool) (v : Line)
    (h : ∀ c ∈ v, p c = false) : v.dropWhile p = v := by
  cases v with
  | nil => rfl
  | cons c v' =>
    rw [List.dropWhile_cons, if_neg (by simp [h c (List.mem_cons_self _ _)])]

theorem dropWhile_not_eq_nil_of_all (v : Line) (h : ∀ c ∈ v, isSpace c = false) :
    v.dropWhile (fun c => !(isSpace c)) = [] := by
  rw [List.dropWhile_eq_nil_iff]
  intro x hx
  simp [h x hx]

theorem splitNone1_len_of_nospace (v : Line) (h : ∀ c ∈ v, isSpace c = false) :
    (splitNone1 v).length ≤ 1 := by
  unfold splitNone1
  rw [dropWhile_eq_self_of_all isSpace v h, dropWhile_not_eq_nil_of_all v h]
  simp only [List.dropWhile_nil]
  split_ifs <;> simp

theorem zipLen_le (ps : List (List Line)) (p : List Line) (hp : p ∈ ps) :
    zipLen ps ≤ p.length := by
  induction ps with
  | nil => simp at hp
  | cons q ps' ih =>
    rcases ps' with _ | ⟨q', ps''⟩
    · rw [List.mem_singleton] at hp
      subst hp
      simp [zipLen]
    · rcases List.mem_cons.mp hp with hp | hp
      · subst hp
        rw [zipLen]
        exact min_le_left _ _
      · calc zipLen (q :: q' :: ps'') ≤ zipLen (q' :: ps'') := by
              rw [zipLen]; exact min_le_right _ _
          _ ≤ p.length := ih hp

theorem pyZipStar_length (ps : List (List Line)) :
    (pyZipStar ps).length = zipLen ps := by
  simp [pyZipStar]

theorem cleanStep_gene_bad (out : NormRecord) (vs : List Line)
    (hbad : ∃ v ∈ vs, ∀ c ∈ v, isSpace c = false) :
    cleanStep out (ltag "GENE") vs = .error .malformedGeneLine := by
  obtain ⟨v, hv, hns⟩ := hbad
  have h3 : (pyZipStar (vs.map splitNone1)).length ≤ 1 := by
    rw [pyZipStar_length]
    exact le_trans (zipLen_le _ _ (List.mem_map_of_mem _ hv))
      (splitNone1_len_of_nospace v hns)
  unfold cleanStep
  rw [if_neg (by decide), if_neg (by decide), if_pos rfl]
  rcases hz : pyZipStar (vs.map splitNone1) with _ | ⟨a, _ | ⟨b, rs⟩⟩
  · rfl
  · rfl
  · rw [hz] at h3
    simp at h3

theorem cleanAux_gene_bad (r : RawRecord) (vs : List Line) :
    ∀ out : NormRecord, (∀ p ∈ r, p.2 ≠ []) → (ltag "GENE", vs) ∈ r →
      (∃ v ∈ vs, ∀ c ∈ v, isSpace c = false) →
      cleanAux out r = .error .malformedGeneLine := by
  induction r with
  | nil =>
    intro out _ hmem _
    simp at hmem
  | cons q rest ih =>
    obtain ⟨t, ws⟩ := q
    intro out hne hmem hbad
    rw [cleanAux]
    rcases List.mem_cons.mp hmem with hq | hq
    · cases hq
      rw [cleanStep_gene_bad out vs hbad]
    · rcases hs : cleanStep out t ws with e | out'
      · have he := cleanStep_error_eq out t ws e
          (hne (t, ws) (List.mem_cons_self _ _)) hs
        rw [he]
      · exact ih out' (fun p hp => hne p (List.mem_cons_of_mem _ hp)) hq hbad

theorem dropWhile_eq_self_of_strip (v : Line) (h : stripChars v = v) :
    v.dropWhile isSpace = v := by
  have h1 : (v.dropWhile isSpace).length ≤ v.length :=
    (List.dropWhile_suffix isSpace).sublist.length_le
  have h2 : v.length ≤ (v.dropWhile isSpace).length := by
    have hp := ( List.rdropWhile_prefix isSpace (v.dropWhile isSpace)).length_le
    rw [← stripChars_eq_rdrop, h] at hp
    exact hp
  exact (List.dropWhile_suffix isSpace).sublist.eq_of_length (le_antisymm h1 h2)

theorem rdrop_eq_self_of_strip (v : Line) (h : stripChars v = v) :
    v.rdropWhile isSpace = v := by
  have hd := dropWhile_eq_self_of_strip v h
  rw [stripChars_eq_rdrop, hd] at h
  exact h

theorem last_not_space_of_strip (v : Line) (h : stripChars v = v) (hne : v ≠ []) :
    isSpace (v.getLast hne) = false := by
  have h2 := List.rdropWhile_eq_self_iff.mp (rdrop_eq_self_of_strip v h) hne
  simpa using h2

theorem splitNone1_trimmed (v : Line) (h : stripChars v = v)
    (hsp : ∃ c ∈ v, isSpace c = true) : splitNone1 v = [fstTok v, sndTok v] := by
  obtain ⟨c, hc, hcs⟩ := hsp
  have hvne : v ≠ [] := by rintro rfl; simp at hc
  have hd : v.dropWhile isSpace = v := dropWhile_eq_self_of_strip v h
  have hm : v.dropWhile (fun x => !(isSpace x)) ≠ [] := by
    intro hnil
    rw [List.dropWhile_eq_nil_iff] at hnil
    have hcc := hnil c hc
    simp [hcs] at hcc
  have hrest : (v.dropWhile (fun x => !(isSpace x))).dropWhile isSpace ≠ [] := by
    intro hnil
    rw [List.dropWhile_eq_nil_iff] at hnil
    obtain ⟨s, hs⟩ := List.dropWhile_suffix (l := v) (fun x => !(isSpace x))
    have hgl : (v.dropWhile (fun x => !(isSpace x))).getLast hm ∈
        v.dropWhile (fun x => !(isSpace x)) := List.getLast_mem hm
    have hq : v.getLast? = (v.dropWhile (fun x => !(isSpace x))).getLast? := by
      conv_lhs => rw [← hs]
      exact List.getLast?_append_of_ne_nil s hm
    rw [List.getLast?_eq_getLast _ hvne,
      List.getLast?_eq_getLast _ hm, Option.some.injEq] at hq
    have hsp2 := hnil _ hgl
    rw [← hq, last_not_space_of_strip v h hvne] at hsp2
    cases hsp2
  unfold splitNone1
  rw [hd, if_neg hvne, if_neg hrest]
  rfl

theorem zipLen_of_pairs (ps : List (List Line)) (hne : ps ≠ [])
    (h : ∀ p ∈ ps, p.length = 2) : zipLen ps = 2 := by
  induction ps with
  | nil => exact absurd rfl hne
  | cons q ps' ih =>
    rcases ps' with _ | ⟨q', ps''⟩
    · rw [zipLen]
      exact h q (List.mem_cons_self _ _)
    · rw [zipLen, ih (by simp) (fun p hp => h p (List.mem_cons_of_mem _ hp)),
        h q (List.mem_cons_self _ _)]
      exact min_self 2

theorem pyZipStar_pairs (vs : List Line) (f g : Line → Line) (hne : vs ≠ [])
    (h : ∀ v ∈ vs, splitNone1 v = [f v, g v]) :
    pyZipStar (vs.map splitNone1) = [vs.map f, vs.map g] := by
  have hmap : vs.map splitNone1 = vs.map (fun v => [f v, g v]) :=
    List.map_congr_left h
  have hz : zipLen (vs.map (fun v => [f v, g v])) = 2 := by
    refine zipLen_of_pairs _ (by simpa using hne) ?_
    intro p hp
    obtain ⟨v, _, hv⟩ := List.mem_map.mp hp
    rw [← hv]
    rfl
  rw [pyZipStar, hmap, hz]
  show [0, 1].map _ = _
  simp [List.map_map]

theorem cleanStep_gene_ok (out : NormRecord) (vs : List Line) (hne : vs ≠ [])
    (h : ∀ v ∈ vs, stripChars v = v ∧ ∃ c ∈ v, isSpace c = true) :
    cleanStep out (ltag "GENE") vs =
      .ok (updAssoc (updAssoc out (ltag "GENE") (.list (vs.map fstTok)))
        (ltag "ORTHOLOG") (.list (vs.map sndTok))) := by
  unfold cleanStep
  rw [if_neg (by decide), if_neg (by decide), if_pos rfl,
    pyZipStar_pairs vs fstTok sndTok hne
      (fun v hv => splitNone1_trimmed v (h v hv).1 (h v hv).2)]

theorem cleanStep_ok_exists (out : NormRecord) (t : Line) (vs : List Line)
    (hvs : vs ≠ []) (hg : t ≠ ltag "GENE") :
    ∃ w, cleanStep out t vs = .ok (updAssoc out t w) := by
  rcases vs with _ | ⟨v, vs'⟩
  · exact absurd rfl hvs
  · unfold cleanStep
    split_ifs
    all_goals
      first
        | exact absurd (by assumption) hg
        | exact ⟨_, rfl⟩

theorem cleanStep_ok_shape (out : NormRecord) (t : Line) (vs : List Line)
    (out' : NormRecord) (hg : t ≠ ltag "GENE") (h : cleanStep out t vs = .ok out') :
    ∃ w, out' = updAssoc out t w := by
  rcases vs with _ | ⟨v, vs'⟩ <;> unfold cleanStep at h <;> split_ifs at h
  all_goals
    first
      | exact absurd (by assumption) hg
      | exact Except.noConfusion h
      | exact ⟨_, (Except.ok.inj h).symm⟩

theorem cleanStep_gene_shape (out : NormRecord) (vs : List Line) (out' : NormRecord)
    (h : cleanStep out (ltag "GENE") vs = .ok out') :
    ∃ w w', out' = updAssoc (updAssoc out (ltag "GENE") w) (ltag "ORTHOLOG") w' := by
  unfold cleanStep at h
  rw [if_neg (by decide), if_neg (by decide), if_pos rfl] at h
  rcases hz : pyZipStar (vs.map splitNone1) with _ | ⟨a, _ | ⟨b, _ | ⟨c, rs⟩⟩⟩ <;>
    rw [hz] at h
  · exact Except.noConfusion h
  · exact Except.noConfusion h
  · exact ⟨.list a, .list b, (Except.ok.inj h).symm⟩
  · exact Except.noConfusion h

theorem cleanAux_append (r₁ r₂ : RawRecord) :
    ∀ out : NormRecord, cleanAux out (r₁ ++ r₂) =
      match cleanAux out r₁ with
      | .error e => .error e
      | .ok m => cleanAux m r₂ := by
  induction r₁ with
  | nil => intro out; rfl
  | cons q r₁' ih =>
    obtain ⟨t, vs⟩ := q
    intro out
    simp only [List.cons_append, cleanAux]
    rcases hs : cleanStep out t vs with e | out''
    · rfl
    · exact ih out''

theorem cleanAux_no_gene (r : RawRecord)
    (h : ∀ p ∈ r, p.2 ≠ [] ∧ p.1 ≠ ltag "GENE" ∧ p.1 ≠ ltag "ORTHOLOG") :
    ∀ out : NormRecord, ∃ out', cleanAux out r = .ok out' ∧
      lookupAssoc out' (ltag "GENE") = lookupAssoc out (ltag "GENE") ∧
      lookupAssoc out' (ltag "ORTHOLOG") = lookupAssoc out (ltag "ORTHOLOG") := by
  induction r with
  | nil => exact fun out => ⟨out, rfl, rfl, rfl⟩
  | cons q rest ih =>
    obtain ⟨t, vs⟩ := q
    intro out
    obtain ⟨hvs, hgt, hot⟩ := h (t, vs) (List.mem_cons_self _ _)
    obtain ⟨w, hw⟩ := cleanStep_ok_exists out t vs hvs hgt
    obtain ⟨out', ho, hg, hoo⟩ :=
      ih (fun p hp => h p (List.mem_cons_of_mem _ hp)) (updAssoc out t w)
    refine ⟨out', ?_, ?_, ?_⟩
    · rw [cleanAux, hw]
      exact ho
    · rw [hg, lookupAssoc_updAssoc_ne out t _ w (Ne.symm hgt)]
    · rw [hoo, lookupAssoc_updAssoc_ne out t _ w (Ne.symm hot)]

theorem tokenizeAux_stop (t : Line) (ht : t.take 3 = ltag "///") (l₂ l₂' : List Line) :
    ∀ (l₁ : List Line) (cur : Option Line) (r : RawRecord),
      tokenizeAux (l₁ ++ t :: l₂) cur r = tokenizeAux (l₁ ++ t :: l₂') cur r := by
  intro l₁
  induction l₁ with
  | nil =>
    intro cur r
    simp only [List.nil_append, tokenizeAux, if_pos ht]
  | cons a l₁' ih =>
    intro cur r
    simp only [List.cons_append, tokenizeAux]
    by_cases ha : a.take 3 = ltag "///"
    · simp only [if_pos ha]
    · simp only [if_neg ha]
      by_cases htag : stripChars (a.take 12) = []
      · simp only [if_neg (not_not_intro htag)]
        cases cur with
        | none => rfl
        | some k =>
          show (match lookupAssoc r k with
              | none => Except.error KErr.malformedRecord
              | some vs =>
                tokenizeAux (l₁' ++ t :: l₂) (some k)
                  (updAssoc r k (vs ++ [stripChars (a.drop 12)]))) =
            (match lookupAssoc r k with
              | none => Except.error KErr.malformedRecord
              | some vs =>
                tokenizeAux (l₁' ++ t :: l₂') (some k)
                  (updAssoc r k (vs ++ [stripChars (a.drop 12)])))
          cases lookupAssoc r k with
          | none => rfl
          | some vs => exact ih _ _
      · simp only [if_pos htag]
        exact ih _ _

theorem stripChars_ne_nil_of_head (c : Char) (xs : Line) (hc : isSpace c = false) :
    stripChars (c :: xs) ≠ [] := by
  rw [stripChars_eq_rdrop, List.dropWhile_cons, if_neg (by simp [hc])]
  rw [Ne, List.rdropWhile_eq_nil_iff]
  push_neg
  exact ⟨c, List.mem_cons_self _ _, by simp [hc]⟩

theorem tag_nonempty_of_slashes (l : Line) (h : l.take 3 = ltag "///") :
    stripChars (l.take 12) ≠ [] := by
  rcases l with _ | ⟨c, l'⟩
  · exact absurd h (by decide)
  · rw [List.take_succ_cons] at h
    have h' : c :: List.take 2 l' = ['/', '/', '/'] := h
    have hc : c = '/' := (List.cons.inj h').1
    subst hc
    show stripChars ('/' :: l'.take 11) ≠ []
    exact stripChars_ne_nil_of_head '/' _ (by decide)

theorem not_mem_keys_updAssoc {α : Type} (r : List (Line × α)) (t k : Line) (w : α)
    (hk : k ∉ keys r) (hkt : k ≠ t) : k ∉ keys (updAssoc r t w) := by
  induction r with
  | nil => simpa [updAssoc, keys] using hkt
  | cons q rest ih =>
    obtain ⟨k₀, v₀⟩ := q
    simp only [keys, List.map_cons, List.mem_cons] at hk
    push_neg at hk
    by_cases h₀ : k₀ = t
    · subst h₀
      rw [show updAssoc ((k₀, v₀) :: rest) k₀ w = (k₀, w) :: rest from by simp [updAssoc]]
      simp only [keys, List.map_cons, List.mem_cons]
      rintro (hx | hx)
      · exact hkt hx
      · exact hk.2 hx
    · simp only [updAssoc, if_neg h₀, keys, List.map_cons, List.mem_cons]
      rintro (hx | hx)
      · exact hk.1 hx
      · exact ih hk.2 hx

theorem not_mem_keys_iff {α : Type} (r : List (Line × α)) (k : Line) :
    k ∉ keys r ↔ ∀ p ∈ r, p.1 ≠ k := by
  unfold keys
  constructor
  · intro h p hp hpk
    exact h (hpk ▸ List.mem_map_of_mem _ hp)
  · intro h hk
    obtain ⟨p, hp, hpk⟩ := List.mem_map.mp hk
    exact h p hp hpk

theorem cleanAux_no_ortholog (r : RawRecord)
    (hG : ∀ p ∈ r, p.1 ≠ ltag "GENE") (hO : ∀ p ∈ r, p.1 ≠ ltag "ORTHOLOG") :
    ∀ out0 out : NormRecord, ltag "ORTHOLOG" ∉ keys out0 →
      cleanAux out0 r = .ok out → ltag "ORTHOLOG" ∉ keys out := by
  induction r with
  | nil =>
    intro out0 out h0 h
    rw [cleanAux] at h
    cases h
    exact h0
  | cons q rest ih =>
    obtain ⟨t, vs⟩ := q
    intro out0 out h0 h
    rw [cleanAux] at h
    rcases hs : cleanStep out0 t vs with e | out1 <;> rw [hs] at h
    · exact Except.noConfusion h
    · obtain ⟨w, hw⟩ :=
        cleanStep_ok_shape out0 t vs out1 (hG (t, vs) (List.mem_cons_self _ _)) hs
      subst hw
      exact ih (fun p hp => hG p (List.mem_cons_of_mem _ hp))
        (fun p hp => hO p (List.mem_cons_of_mem _ hp)) _ out
        (not_mem_keys_updAssoc out0 t _ w h0
          (Ne.symm (hO (t, vs) (List.mem_cons_self _ _)))) h

theorem cleanAux_keys (r : RawRecord) :
    ∀ out0 out : NormRecord, (keys r).Nodup → ltag "ORTHOLOG" ∉ keys r →
      (∀ k ∈ keys r, k ∉ keys out0) →
      (ltag "GENE" ∈ keys r → ltag "ORTHOLOG" ∉ keys out0) →
      cleanAux out0 r = .ok out →
      keys out = keys out0 ++ expectedKeys (keys r) := by
  induction r with
  | nil =>
    intro out0 out _ _ _ _ h
    rw [cleanAux] at h
    cases h
    simp [expectedKeys, keys]
  | cons q rest ih =>
    obtain ⟨t, vs⟩ := q
    intro out0 out hnd hO hdisj hGO h
    have hkr : keys ((t, vs) :: rest) = t :: keys rest := rfl
    rw [hkr] at hnd hO hdisj hGO ⊢
    have hnd' := List.nodup_cons.mp hnd
    have htO : t ≠ ltag "ORTHOLOG" := by
      intro hq
      exact hO (by rw [← hq]; exact List.mem_cons_self _ _)
    have hOrest : ltag "ORTHOLOG" ∉ keys rest := fun hx =>
      hO (List.mem_cons_of_mem _ hx)
    rw [cleanAux] at h
    rcases hs : cleanStep out0 t vs with e | out1 <;> rw [hs] at h
    · exact Except.noConfusion h
    · by_cases hg : t = ltag "GENE"
      · subst hg
        obtain ⟨w, w', hw⟩ := cleanStep_gene_shape out0 vs out1 hs
        subst hw
        have hG0 : ltag "GENE" ∉ keys out0 :=
          hdisj _ (List.mem_cons_self _ _)
        have hO0 : ltag "ORTHOLOG" ∉ keys out0 := hGO (List.mem_cons_self _ _)
        have h1 : keys (updAssoc out0 (ltag "GENE") w) = keys out0 ++ [ltag "GENE"] :=
          keys_updAssoc_of_not_mem _ _ _ hG0
        have h2 : keys (updAssoc (updAssoc out0 (ltag "GENE") w) (ltag "ORTHOLOG") w') =
            keys out0 ++ [ltag "GENE", ltag "ORTHOLOG"] := by
          rw [keys_updAssoc_of_not_mem _ _ _ (by rw [h1]; simp [hO0]; decide), h1]
          simp
        have hGrest : ltag "GENE" ∉ keys rest := hnd'.1
        have hres := ih _ out hnd'.2 hOrest
          (fun k hk => by
            rw [h2]
            intro hx
            rcases List.mem_append.mp hx with hx | hx
            · exact hdisj k (List.mem_cons_of_mem _ hk) hx
            · rcases List.mem_cons.mp hx with hx | hx
              · exact hGrest (hx ▸ hk)
              · rcases List.mem_cons.mp hx with hx | hx
                · exact hOrest (hx ▸ hk)
                · simp at hx)
          (fun hx => absurd hx hGrest) h
        rw [hres, h2, expectedKeys, if_pos rfl]
        simp
      · obtain ⟨w, hw⟩ := cleanStep_ok_shape out0 t vs out1 hg hs
        subst hw
        have h1 : keys (updAssoc out0 t w) = keys out0 ++ [t] :=
          keys_updAssoc_of_not_mem _ _ _ (hdisj t (List.mem_cons_self _ _))
        have hres := ih _ out hnd'.2 hOrest
          (fun k hk => by
            rw [h1]
            intro hx
            rcases List.mem_append.mp hx with hx | hx
            · exact hdisj k (List.mem_cons_of_mem _ hk) hx
            · rcases List.mem_cons.mp hx with hx | hx
              · exact hnd'.1 (hx ▸ hk)
              · simp at hx)
          (fun hx => by
            rw [h1]
            intro hy
            rcases List.mem_append.mp hy with hy | hy
            · exact hGO (List.mem_cons_of_mem _ hx) hy
            · rcases List.mem_cons.mp hy with hy | hy
              · exact htO hy.symm
              · simp at hy) h
        rw [hres, h1, expectedKeys, if_neg hg]
        simp

/-- C1: for every raw record in which every raw line under the `GENE` tag
is stripped and contains a whitespace separator (the shape the tokenizer
guarantees), normalization splits each `GENE` line into exactly two parts
on the first whitespace run, stores the list of first parts under `GENE`
and the list of second parts under a synthesized `ORTHOLOG` key, and the
two lists are index-aligned with the same length as the line list. The
record is quantified as any surrounding of the `GENE` entry by entries
with non-empty line lists not tagged `GENE` or `ORTHOLOG`. -/
theorem gene_pairing (pre post : RawRecord) (vs : List Line)
    (hpre : ∀ p ∈ pre, p.2 ≠ [] ∧ p.1 ≠ ltag "GENE" ∧ p.1 ≠ ltag "ORTHOLOG")
    (hpost : ∀ p ∈ post, p.2 ≠ [] ∧ p.1 ≠ ltag "GENE" ∧ p.1 ≠ ltag "ORTHOLOG")
    (hvs : vs ≠ [])
    (hlines : ∀ v ∈ vs, stripChars v = v ∧ ∃ c ∈ v, isSpace c = true) :
    ∃ out, clean_entry (pre ++ (ltag "GENE", vs) :: post) = .ok out ∧
      lookupAssoc out (ltag "GENE") = some (.list (vs.map fstTok)) ∧
      lookupAssoc out (ltag "ORTHOLOG") = some (.list (vs.map sndTok)) ∧
      (vs.map fstTok).length = vs.length ∧ (vs.map sndTok).length = vs.length := by
  obtain ⟨mid, hmid, _, _⟩ := cleanAux_no_gene pre hpre []
  have hstep := cleanStep_gene_ok mid vs hvs hlines
  obtain ⟨out, hout, hg, ho⟩ := cleanAux_no_gene post hpost
    (updAssoc (updAssoc mid (ltag "GENE") (.list (vs.map fstTok)))
      (ltag "ORTHOLOG") (.list (vs.map sndTok)))
  refine ⟨out, ?_, ?_, ?_, List.length_map _ _, List.length_map _ _⟩
  · unfold clean_entry
    rw [cleanAux_append, hmid]
    show cleanAux mid ((ltag "GENE", vs) :: post) = .ok out
    rw [cleanAux, hstep]
    exact hout
  · rw [hg, lookupAssoc_updAssoc_ne _ _ _ _ (by decide)]
    exact lookupAssoc_updAssoc_self _ _ _
  · rw [ho]
    exact lookupAssoc_updAssoc_self _ _ _

theorem gene_pairing_witness :
    ∃ out, clean_entry [(ltag "GENE",
        [ltag "shn:001 K00001 desc one", ltag "shn:002 K00002 desc two"])] = .ok out ∧
      lookupAssoc out (ltag "GENE") = some (.list [ltag "shn:001", ltag "shn:002"]) ∧
      lookupAssoc out (ltag "ORTHOLOG") =
        some (.list [ltag "K00001 desc one", ltag "K00002 desc two"]) ∧
      ([ltag "shn:001", ltag "shn:002"] : List Line).length =
        ([ltag "shn:001 K00001 desc one", ltag "shn:002 K00002 desc two"] : List Line).length ∧
      ([ltag "K00001 desc one", ltag "K00002 desc two"] : List Line).length =
        ([ltag "shn:001 K00001 desc one", ltag "shn:002 K00002 desc two"] : List Line).length :=
  gene_pairing [] [] _ (by simp) (by simp) (by decide) (by decide)

/-- C2: for every raw record containing a `GENE` entry (with the
tokenizer's guarantee that every entry has at least one line), if some
raw line under `GENE` has no whitespace at all (so it cannot be split
into an id and a description), normalization fails with the error
modelling `MalformedGeneLineError` (the `ValueError` of the two-element
unpacking in the source). -/
theorem gene_malformed_line (r : RawRecord) (vs : List Line)
    (hne : ∀ p ∈ r, p.2 ≠ []) (hmem : (ltag "GENE", vs) ∈ r)
    (hbad : ∃ v ∈ vs, ∀ c ∈ v, isSpace c = false) :
    clean_entry r = .error .malformedGeneLine :=
  cleanAux_gene_bad r vs [] hne hmem hbad

theorem gene_malformed_line_witness :
    clean_entry [(ltag "GENE", [ltag "onlyid"])] = .error .malformedGeneLine :=
  gene_malformed_line [(ltag "GENE", [ltag "onlyid"])] [ltag "onlyid"]
    (by decide) (by decide) (by decide)

/-- C3: for every input text whose first line is not a terminator and has
an all-blank tag column (a continuation line before any tag has been
established), tokenization fails with the error modelling
`MalformedRecordError` (the `KeyError` on `saved_rec[None]` in the
source). -/
theorem continuation_before_tag (text : List Char) (l₀ : Line) (rest : List Line)
    (hl : pyLines text = l₀ :: rest) (ht : ¬ l₀.take 3 = ltag "///")
    (hb : stripChars (l₀.take 12) = []) :
    tokenize (pyLines text) = .error .malformedRecord := by
  rw [hl]
  unfold tokenize
  simp only [tokenizeAux]
  rw [if_neg ht, if_neg (not_not_intro hb)]

theorem continuation_before_tag_witness :
    tokenize (pyLines (ltag "            orphan line")) = .error .malformedRecord :=
  continuation_before_tag (ltag "            orphan line")
    (ltag "            orphan line") [] (by decide) (by decide) (by decide)

/-- C4 counterexample: the well-formed input "ORTHOLOG    x" (one entry
whose tag happens to be the literal string ORTHOLOG) contains no `GENE`
tag, yet its normalized output does contain an `ORTHOLOG` key, so the
claim that GENE-free well-formed input never yields an `ORTHOLOG` key is
false as stated. -/
theorem ortholog_without_gene :
    tokenize (pyLines (ltag "ORTHOLOG    x")) = .ok [(ltag "ORTHOLOG", [ltag "x"])] ∧
    ltag "GENE" ∉ keys [(ltag "ORTHOLOG", ([ltag "x"] : List Line))] ∧
    kegg_parse (ltag "ORTHOLOG    x") = .ok [(ltag "ORTHOLOG", .str (ltag "x"))] ∧
    ltag "ORTHOLOG" ∈ keys [(ltag "ORTHOLOG", NormValue.str (ltag "x"))] := by
  exact ⟨by decide, by decide, by decide, by decide⟩

/-- C4 amended: for every raw record containing neither a `GENE` tag nor
a literal `ORTHOLOG` tag, a successful normalization yields an output
with no `ORTHOLOG` key: the synthesized `ORTHOLOG` key appears only when
`GENE` was present, provided the input did not itself carry an
`ORTHOLOG` tag. -/
theorem no_gene_no_ortholog (r : RawRecord) (out : NormRecord)
    (hG : ltag "GENE" ∉ keys r) (hO : ltag "ORTHOLOG" ∉ keys r)
    (h : clean_entry r = .ok out) : ltag "ORTHOLOG" ∉ keys out :=
  cleanAux_no_ortholog r ((not_mem_keys_iff r _).mp hG) ((not_mem_keys_iff r _).mp hO)
    [] out (by simp [keys]) h

theorem no_gene_no_ortholog_witness :
    ltag "ORTHOLOG" ∉ keys [(ltag "NAME", NormValue.str (ltag "foo"))] :=
  no_gene_no_ortholog [(ltag "NAME", [ltag "foo"])]
    [(ltag "NAME", NormValue.str (ltag "foo"))] (by decide) (by decide) (by decide)

/-- C5 counterexample: on the input "TAG   val\n///\nTAG2  val2" the
claimed record {"TAG": ["val"]} is wrong: the first line is only 9
characters long, so all of it lies inside the 12-character tag column
and the record is keyed by the string "TAG   val" with one empty value
line. -/
theorem terminator_example_cex :
    tokenize (pyLines (ltag "TAG   val\n///\nTAG2  val2")) =
      .ok [(ltag "TAG   val", [[]])] ∧
    tokenize (pyLines (ltag "TAG   val\n///\nTAG2  val2")) ≠
      .ok [(ltag "TAG", [ltag "val"])] := by
  exact ⟨by decide, by decide⟩

/-- C5 amended: scanning stops at the first line beginning with the
literal marker /// and everything from that line onward is discarded:
the tokenizer's result does not depend on the lines following the
terminator. (On the example input "TAG   val\n///\nTAG2  val2" the line
TAG2 is indeed discarded, but the surviving record is
{"TAG   val": [""]}, not {"TAG": ["val"]}, because the first line is
shorter than the 12-character tag column.) -/
theorem terminator_discards_rest (l₁ : List Line) (t : Line) (l₂ l₂' : List Line)
    (ht : t.take 3 = ltag "///") :
    tokenize (l₁ ++ t :: l₂) = tokenize (l₁ ++ t :: l₂') :=
  tokenizeAux_stop t ht l₂ l₂' l₁ none []

theorem terminator_discards_rest_witness :
    tokenize (pyLines (ltag "TAG   val\n///\nTAG2  val2")) =
      tokenize ([ltag "TAG   val"] ++ [ltag "///"]) ∧
    tokenize ([ltag "TAG   val"] ++ [ltag "///"]) = .ok [(ltag "TAG   val", [[]])] := by
  constructor
  · have h := terminator_discards_rest [ltag "TAG   val"] (ltag "///")
      [ltag "TAG2  val2"] [] (by decide)
    have hp : pyLines (ltag "TAG   val\n///\nTAG2  val2") =
        [ltag "TAG   val"] ++ (ltag "///") :: [ltag "TAG2  val2"] := by decide
    rw [hp]
    exact h
  · decide

/-- C6: tag reset semantics - when a line reopens tag `t` (non-blank tag
column, not a terminator line), the tokenizer continues identically
whatever list of lines was previously stored under `t` in the record:
the second occurrence's entry fully replaces the first, and the earlier
lines are never appended to. -/
theorem tag_reset (y : Line) (zs : List Line) (cur : Option Line)
    (r : RawRecord) (t : Line) (w : List Line)
    (hy3 : ¬ y.take 3 = ltag "///") (htag : stripChars (y.take 12) = t)
    (hne : t ≠ []) :
    tokenizeAux (y :: zs) cur (updAssoc r t w) = tokenizeAux (y :: zs) cur r := by
  subst htag
  simp only [tokenizeAux, if_neg hy3, if_pos hne]
  rw [updAssoc_updAssoc]

theorem tag_reset_witness :
    tokenizeAux [ltag "TAG         b"] (some (ltag "TAG"))
      (updAssoc [] (ltag "TAG") [ltag "a"]) = .ok [(ltag "TAG", [ltag "b"])] ∧
    tokenize (pyLines (ltag "TAG         a\nTAG         b")) =
      .ok [(ltag "TAG", [ltag "b"])] := by
  constructor
  · rw [tag_reset (ltag "TAG         b") [] (some (ltag "TAG")) []
      (ltag "TAG") [ltag "a"] (by decide) (by decide) (by decide)]
    decide
  · decide

/-- C7 counterexample: the claimed example is wrong on the code: in the
input "NAME  foo\n      bar" both lines are shorter than 12 characters,
so the first line's whole text "NAME  foo" becomes the tag (with an
empty value) and the second line is not a continuation at all - its
trimmed tag column is the non-blank "bar", which opens a fresh tag. -/
theorem fixed_width_example_cex :
    tokenize (pyLines (ltag "NAME  foo\n      bar")) =
      .ok [(ltag "NAME  foo", [[]]), (ltag "bar", [[]])] ∧
    tokenize (pyLines (ltag "NAME  foo\n      bar")) ≠
      .ok [(ltag "NAME", [ltag "foo", ltag "bar"])] := by
  exact ⟨by decide, by decide⟩

/-- C7 amended: each non-terminator line is split at the fixed character
index 12 (first 12 characters the candidate tag, remainder the payload);
a line whose trimmed tag column is empty is a continuation whose trimmed
payload is appended to the current tag's line sequence. For a fresh tag
line followed by a continuation line this yields the two trimmed
payloads, in order, under the trimmed tag - as in the correctly padded
example "NAME        foo" / "            bar", whose record is
{"NAME": ["foo", "bar"]} and whose normalized NAME value is "foo". -/
theorem fixed_width_split (l₁ l₂ : Line)
    (h1t : ¬ l₁.take 3 = ltag "///")
    (h1 : stripChars (l₁.take 12) ≠ [])
    (h2 : stripChars (l₂.take 12) = []) :
    tokenize [l₁, l₂] = .ok [(stripChars (l₁.take 12),
      [stripChars (l₁.drop 12), stripChars (l₂.drop 12)])] := by
  have h2t : ¬ l₂.take 3 = ltag "///" := fun hq => (tag_nonempty_of_slashes l₂ hq) h2
  unfold tokenize
  simp only [tokenizeAux, if_neg h1t, if_pos h1, if_neg h2t,
    if_neg (not_not_intro h2), updAssoc, lookupAssoc, eq_self_iff_true, if_true,
    List.singleton_append]

theorem fixed_width_split_witness :
    tokenize [ltag "NAME        foo", ltag "            bar"] =
      .ok [(ltag "NAME", [ltag "foo", ltag "bar"])] ∧
    kegg_parse (ltag "NAME        foo\n            bar") =
      .ok [(ltag "NAME", .str (ltag "foo"))] := by
  constructor
  · exact fixed_width_split (ltag "NAME        foo") (ltag "            bar")
      (by decide) (by decide) (by decide)
  · decide

/-- C8: empty input text (no terminator, zero tags) parses successfully
to an empty record rather than raising an error. -/
theorem empty_input_ok : kegg_parse (ltag "") = .ok [] := rfl

/-- C9: every raw record the tokenizer returns maps each tag to a
non-empty list of lines, each line already stripped of leading and
trailing whitespace; consequently the normalizer's accesses to the first
raw line of a tag never fail, i.e. normalization of such a record never
raises the index error. -/
theorem tokenize_invariant (lines : List Line) (r : RawRecord)
    (h : tokenize lines = .ok r) :
    (∀ p ∈ r, p.2 ≠ [] ∧ ∀ v ∈ p.2, stripChars v = v) ∧
    clean_entry r ≠ .error .indexError := by
  have hg : GoodRec r :=
    tokenizeAux_good lines none [] r (fun p hp => absurd hp (List.not_mem_nil p)) h
  refine ⟨hg, fun hc => ?_⟩
  have he := cleanAux_error_eq r [] .indexError (fun p hp => (hg p hp).1) hc
  exact absurd he (by decide)

theorem tokenize_invariant_witness :
    (∀ p ∈ ([(ltag "NAME", [ltag "foo"])] : RawRecord),
      p.2 ≠ [] ∧ ∀ v ∈ p.2, stripChars v = v) ∧
    clean_entry [(ltag "NAME", [ltag "foo"])] ≠ .error .indexError :=
  tokenize_invariant [ltag "NAME        foo"] [(ltag "NAME", [ltag "foo"])] (by decide)

/-- C10 counterexample: for the raw record with entries ORTHOLOG then
GENE (possible because a well-formed input may carry a literal ORTHOLOG
tag), the normalized output's keys are [ORTHOLOG, GENE]: the synthesized
ORTHOLOG key is merged into the pre-existing ORTHOLOG entry at its
first-seen position, which is before GENE, not immediately after it, so
the claimed key shape fails. -/
theorem keys_shape_cex :
    clean_entry [(ltag "ORTHOLOG", [ltag "x"]), (ltag "GENE", [ltag "a b"])] =
      .ok [(ltag "ORTHOLOG", .list [ltag "b"]), (ltag "GENE", .list [ltag "a"])] ∧
    keys [(ltag "ORTHOLOG", NormValue.list [ltag "b"]),
        (ltag "GENE", NormValue.list [ltag "a"])] ≠
      expectedKeys (keys [(ltag "ORTHOLOG", ([ltag "x"] : List Line)),
        (ltag "GENE", [ltag "a b"])]) := by
  exact ⟨by decide, by decide⟩

/-- C10 amended: for every raw record with distinct tags and no literal
ORTHOLOG tag, a successful normalization produces exactly the input's
tag sequence in first-seen order with ORTHOLOG inserted immediately
after GENE when GENE is present; no other key is added and none is
dropped. -/
theorem keys_shape (r : RawRecord) (out : NormRecord)
    (hnd : (keys r).Nodup) (hO : ltag "ORTHOLOG" ∉ keys r)
    (h : clean_entry r = .ok out) :
    keys out = expectedKeys (keys r) := by
  have hk := cleanAux_keys r [] out hnd hO
    (fun k _ => by simp [keys]) (fun _ => by simp [keys]) h
  simpa using hk

theorem keys_shape_witness :
    keys [(ltag "ENTRY", NormValue.list [ltag "E1"]),
        (ltag "GENE", NormValue.list [ltag "a"]),
        (ltag "ORTHOLOG", NormValue.list [ltag "b"])] =
      expectedKeys (keys [(ltag "ENTRY", ([ltag "E1"] : List Line)),
        (ltag "GENE", [ltag "a b"])]) :=
  keys_shape [(ltag "ENTRY", [ltag "E1"]), (ltag "GENE", [ltag "a b"])]
    [(ltag "ENTRY", NormValue.list [ltag "E1"]),
      (ltag "GENE", NormValue.list [ltag "a"]),
      (ltag "ORTHOLOG", NormValue.list [ltag "b"])]
    (by decide) (by decide) (by decide)

end Kegger
